import Mathlib

/-!
Verification development for the SubstitutionBreaker repository
(`subbreaker/key.py` and `subbreaker/breaker.py`).

The Python code is shallowly embedded: strings become lists of an abstract
character type `PChar` carrying the case structure relevant to the code
(`str.lower`, the safe `_upper`), Python dicts built by comprehension become
association lookups in which later entries override earlier ones,
`str.maketrans`/`str.translate` become an executable table lookup, machine
integers become `Nat`/`Int` (Python ints are unbounded, so no wrap-around
modelling is needed), float arithmetic on fitness values becomes exact `ℚ`
arithmetic, and raised exceptions become `Except String`.  `random.shuffle`
and the hill-climbing rounds driven by it are embedded by quantifying over
the possible outcomes: the shuffle (resp. the per-round procedure) is a
function parameter, and theorems about `break_cipher` hold for every such
parameter, hence for every run of the randomized program.
-/

namespace SubBreaker

/-! ## Characters and Python string primitives

A `PChar` models one Python character as the code sees it: a lowercase
cased character `low n`, its uppercase counterpart `up n`, or a character
without a distinct single-character uppercase form `other n` (digits,
punctuation, and characters such as "ß" whose `upper()` has length ≠ 1 and
which `Key._upper` therefore leaves unchanged). -/
inductive PChar where
  | low (n : Nat)
  | up (n : Nat)
  | other (n : Nat)
deriving DecidableEq, Repr

/-- Python `str.lower`, character-wise. -/
def pyLower : PChar → PChar
  | .up n => .low n
  | c => c

/-- The character-wise effect of `Key._upper`: `char.upper()` when that has
length 1, otherwise the character itself.  In this embedding every `low`
character has the single-character uppercase `up`, and `up`/`other`
characters are left unchanged (for `other` this covers both caseless
characters, which Python maps to themselves, and characters like "ß" which
`_upper` deliberately keeps). -/
def pyUpper : PChar → PChar
  | .low n => .up n
  | c => c

/-- Python `s.lower()` on a string. -/
def strLower (s : List PChar) : List PChar := s.map pyLower

/-- `Key._upper` on a string. -/
def strUpper (s : List PChar) : List PChar := s.map pyUpper

/-- Lookup in a translation table built like a Python dict from a list of
(key, value) pairs: a later pair with the same key overrides an earlier
one, so the table is scanned back-to-front. -/
def transLookup? : List (PChar × PChar) → PChar → Option PChar
  | [], _ => none
  | p :: rest, c =>
    match transLookup? rest c with
    | some b => some b
    | none => if p.1 = c then some p.2 else none

/-- Python `str.translate` with a table produced by `str.maketrans(xs, ys)`:
characters found in the table are replaced, all others are kept. -/
def pyTranslate (tbl : List (PChar × PChar)) (s : List PChar) : List PChar :=
  s.map (fun c => (transLookup? tbl c).getD c)

/-- The state of a constructed `Key` object (`key.py`, `Key.__init__`):
the validated lowercase key and alphabet and the two translation tables. -/
structure KeyObj where
  key : List PChar
  alphabet : List PChar
  enc : List (PChar × PChar)
  dec : List (PChar × PChar)
deriving DecidableEq, Repr

/-- `Key.check_alphabet`: lowercase the alphabet and require its characters
to be unique (`len(alphabet) != len(set(alphabet))` fails exactly when the
list has a duplicate). -/
def check_alphabet (alphabet : List PChar) : Except String (List PChar) :=
  if (strLower alphabet).Nodup then .ok (strLower alphabet)
  else .error "alphabet characters must be unique"

/-- `Key.check_key`: lowercase the key, require unique characters, the same
length as the (already lowercased) alphabet, and the same character set. -/
def check_key (key alphabet : List PChar) : Except String (List PChar) :=
  if ¬ (strLower key).Nodup then .error "key characters must be unique"
  else if (strLower key).length ≠ alphabet.length then
    .error "key must be as long as the alphabet"
  else if ¬ (∀ c ∈ strLower key, c ∈ alphabet) ∨
      ¬ (∀ c ∈ alphabet, c ∈ strLower key) then
    .error "key must use the same set of characters than the alphabet"
  else .ok (strLower key)

/-- `Key.__init__`: validate alphabet and key, then build the two
translation tables from `camel_key = _upper(key) + key.lower()` and
`camel_alphabet = _upper(alphabet) + alphabet.lower()`. -/
def mkKey (key alphabet : List PChar) : Except String KeyObj :=
  match check_alphabet alphabet with
  | .error e => .error e
  | .ok al =>
    match check_key key al with
    | .error e => .error e
    | .ok k =>
      let camel_key := strUpper key ++ strLower key
      let camel_alphabet := strUpper alphabet ++ strLower alphabet
      .ok { key := k
            alphabet := al
            enc := camel_alphabet.zip camel_key
            dec := camel_key.zip camel_alphabet }

/-- `Key.encode`. -/
def Key.encode (K : KeyObj) (plaintext : List PChar) : List PChar :=
  pyTranslate K.enc plaintext

/-- `Key.decode`. -/
def Key.decode (K : KeyObj) (ciphertext : List PChar) : List PChar :=
  pyTranslate K.dec ciphertext

/-! ## `breaker.py`: projection through the alphabet -/

/-- Lookup in the dict `{char: idx for idx, char in enumerate(alphabet.lower())}`
(the `trans` table of `Breaker._text_iterator` / `Breaker._file_iterator`):
the dict is built left to right, a later duplicate character overriding an
earlier one. -/
def transIdxGo (c : PChar) : List PChar → Nat → Option Nat → Option Nat
  | [], _, acc => acc
  | a :: rest, i, acc => transIdxGo c rest (i + 1) (if a = c then some i else acc)

/-- Index of a character in the lowercased alphabet, `None` when absent. -/
def transIdx? (alphabet : List PChar) (c : PChar) : Option Nat :=
  transIdxGo c (strLower alphabet) 0 none

/-- `Breaker._text_iterator`: lowercase the text and yield the alphabet
index of every character present in the alphabet, skipping all others. -/
def textProject (alphabet txt : List PChar) : List Nat :=
  (strLower txt).filterMap (transIdx? alphabet)

/-! ## Quadgram codes and model construction -/

/-- The rolling quadgram-code update `((code & 0x7FFF) << 5) + symbol`,
written identically at the three sites that use it
(`generate_quadgrams`, `_calc_fitness`, `_hill_climbing`). -/
def quadStep (code sym : Nat) : Nat := ((code &&& 0x7FFF) <<< 5) + sym

/-- Python 3 `round` on an exact rational: round half to even. -/
def pyRound (q : ℚ) : Int :=
  let f := ⌊q⌋
  let r := q - (f : ℚ)
  if r < 1/2 then f
  else if 1/2 < r then f + 1
  else if 2 ∣ f then f else f + 1

/-- The counting loop of `Breaker.generate_quadgrams`: starting from the
three-symbol seed code, slide the window over the remaining symbols and
increment the table entry at each resulting code. -/
def countQuadgramsGo : List Nat → Nat → List Nat → List Nat
  | [], _, tbl => tbl
  | c :: rest, code, tbl =>
    let code' := quadStep code c
    countQuadgramsGo rest code' (tbl.set code' (tbl.getD code' 0 + 1))

/-- The data serialized by `generate_quadgrams` (the `json.dump` argument). -/
structure QuadgramData where
  alphabet : List PChar
  nbr_quadgrams : Nat
  most_frequent_quadgram : List PChar
  max_fitness : Int
  average_fitness : ℚ
  quadgrams : List Int
deriving Repr

/-- `Breaker.generate_quadgrams`.  `logf` stands for `math.log`; the
construction is proved for every such function, hence for the float
logarithm of any actual run that completes.  The two situations in which
the Python code dies before producing data (a projected corpus of fewer
than 3 symbols raises `StopIteration` out of the three initial
`iterator.__next__()` calls, and a corpus with no quadgram at all divides
by `quadgram_sum == 0`) are modelled as errors.  Rational division is
total in Lean (`x / 0 = 0`), which is only ever exercised on those error
paths. -/
def generate_quadgrams (logf : ℚ → ℚ) (corpus alphabet : List PChar) :
    Except String QuadgramData :=
  match check_alphabet alphabet with
  | .error e => .error e
  | .ok al =>
  if 32 < al.length then
    .error "Alphabet must have less or equal than 32 characters"
  else
    match textProject al corpus with
    | c0 :: c1 :: c2 :: rest =>
      if rest.isEmpty then .error "ZeroDivisionError" else
      let seed := (((c0 <<< 5) + c1) <<< 5) + c2
      let counts := countQuadgramsGo rest seed (List.replicate (32 * 32 * 32 * 32) 0)
      let quadgram_sum := counts.sum
      let quadgram_min := counts.foldl
        (fun m v => if v ≠ 0 then min m v else m) 10000000
      let offset := logf ((quadgram_min : ℚ) / 10 / (quadgram_sum : ℚ))
      let scoresQ : List ℚ := counts.map
        (fun (v : Nat) =>
          if v ≠ 0 then logf ((v : ℚ) / (quadgram_sum : ℚ)) - offset else 0)
      let norm : ℚ := (counts.map
        (fun (v : Nat) => if v ≠ 0 then
            ((v : ℚ) / (quadgram_sum : ℚ)) * (logf ((v : ℚ) / (quadgram_sum : ℚ)) - offset)
          else 0)).sum
      let quadgrams : List Int := scoresQ.map (fun q => pyRound (q / norm * 1000))
      let max_val := (quadgrams.max?).getD 0
      let max_idx := quadgrams.findIdx (fun v => v = max_val)
      let max_chars := [al.getD ((max_idx >>> 15) &&& 0x1F) (.low 0),
                        al.getD ((max_idx >>> 10) &&& 0x1F) (.low 0),
                        al.getD ((max_idx >>> 5) &&& 0x1F) (.low 0),
                        al.getD (max_idx &&& 0x1F) (.low 0)]
      .ok { alphabet := al
            nbr_quadgrams := quadgram_sum
            most_frequent_quadgram := max_chars
            max_fitness := max_val
            average_fitness := (quadgrams.map (Int.cast : Int → ℚ)).sum / ((al.length : ℚ) ^ 4)
            quadgrams := quadgrams }
    | _ => .error "StopIteration"

/-! ## Fitness calculation -/

/-- The scoring loop shared by `_calc_fitness` (on the symbols after the
first three) and the rescoring step of `_hill_climbing`: roll the code
with `quadStep` and accumulate the table entries.  Returns the fitness sum
and the number of quadgrams formed. -/
def scoreGo (qg : List Int) : List Nat → Nat → Int → Nat → Int × Nat
  | [], _, acc, n => (acc, n)
  | c :: rest, code, acc, n =>
    let code' := quadStep code c
    scoreGo qg rest code' (acc + qg.getD code' 0) (n + 1)

/-- `Breaker._calc_fitness` on an already projected symbol sequence:
consume three symbols (error if unavailable), accumulate table entries over
the remaining windows, error when no quadgram was formed, otherwise return
`fitness / nbr_quadgrams / 10`. -/
def calc_fitness_bin (qg : List Int) (syms : List Nat) : Except String ℚ :=
  match syms with
  | c0 :: c1 :: c2 :: rest =>
    let seed := (((c0 <<< 5) + c1) <<< 5) + c2
    let (fitness, nbr_quadgrams) := scoreGo qg rest seed 0 0
    if nbr_quadgrams = 0 then
      .error "More than three characters from the given alphabet are required"
    else
      .ok ((fitness : ℚ) / (nbr_quadgrams : ℚ) / 10)
  | _ => .error "More than three characters from the given alphabet are required"

/-- `Breaker.calc_fitness`: project the text through the breaker's alphabet
and score it. -/
def calc_fitness (alphabet : List PChar) (qg : List Int) (txt : List PChar) :
    Except String ℚ :=
  calc_fitness_bin qg (textProject alphabet txt)

/-! ## Hill climbing (`Breaker._hill_climbing`) -/

/-- The mutable state of one hill-climbing run: the key, the derived
plaintext array, the best fitness seen in this climb, the number of keys
evaluated, and the `better_key` flag. -/
structure ClimbState where
  key : List Nat
  plaintext : List Nat
  maxFitness : Int
  nbrKeys : Nat
  betterKey : Bool
deriving DecidableEq, Repr

/-- The loop `for idx in positions: plaintext[idx] = v`. -/
def setPositions (pt : List Nat) (positions : List Nat) (v : Nat) : List Nat :=
  positions.foldl (fun l p => l.set p v) pt

/-- The full-text rescoring inside a pair trial:
`quad_idx = (plaintext[0] << 10) + (plaintext[1] << 5) + plaintext[2]`
followed by rolling over `plaintext[3:]` and summing the table entries. -/
def scoreText (qg : List Int) (pt : List Nat) : Int :=
  match pt with
  | p0 :: p1 :: p2 :: rest =>
    (scoreGo qg rest ((p0 <<< 10) + (p1 <<< 5) + p2) 0 0).1
  | _ => 0

/-- One pair trial of `_hill_climbing` for positions `idx1 < idx2`:
tentatively flip the plaintext at the positions of the two key characters,
rescore the whole text, and either commit the swap to the key (strict
improvement) or swap the plaintext back. -/
def trialStep (qg : List Int) (cp : List (List Nat)) (s : ClimbState)
    (idx1 idx2 : Nat) : ClimbState :=
  let ch1 := s.key.getD idx1 0
  let ch2 := s.key.getD idx2 0
  let pt := setPositions (setPositions s.plaintext (cp.getD ch1 []) idx2)
    (cp.getD ch2 []) idx1
  let nk := s.nbrKeys + 1
  let tmp := scoreText qg pt
  if tmp > s.maxFitness then
    { key := (s.key.set idx1 ch2).set idx2 ch1
      plaintext := pt
      maxFitness := tmp
      nbrKeys := nk
      betterKey := true }
  else
    { s with
      plaintext := setPositions (setPositions pt (cp.getD ch1 []) idx1)
        (cp.getD ch2 []) idx2,
      nbrKeys := nk }

/-- The pair enumeration
`for idx1 in range(key_len - 1): for idx2 in range(idx1 + 1, key_len)`. -/
def keyPairs (keyLen : Nat) : List (Nat × Nat) :=
  (List.range (keyLen - 1)).flatMap
    (fun i => (List.range' (i + 1) (keyLen - (i + 1))).map (fun j => (i, j)))

/-- One full pass of the `while better_key` body: clear the flag and run
every pair trial in order. -/
def runPass (qg : List Int) (cp : List (List Nat)) (keyLen : Nat)
    (s : ClimbState) : ClimbState :=
  (keyPairs keyLen).foldl (fun st p => trialStep qg cp st p.1 p.2)
    { s with betterKey := false }

/-- The `while better_key` loop, with fuel (the Python loop terminates
because `max_fitness` strictly increases whenever another pass is taken;
exhausted fuel returns the current state). -/
def climbLoop (qg : List Int) (cp : List (List Nat)) (keyLen : Nat) :
    Nat → ClimbState → ClimbState
  | 0, s => s
  | fuel + 1, s =>
    if s.betterKey then climbLoop qg cp keyLen fuel (runPass qg cp keyLen s) else s

/-- `Breaker._hill_climbing`: derive the plaintext array
(`plaintext = [key.index(idx) for idx in cipher_bin]`, where `list.index`
is total here because the cipher symbols are alphabet indices and the key a
permutation of them) and run the climb to a local maximum.  The returned
state carries `(max_fitness, nbr_keys)` together with the mutated key. -/
def hillClimbing (qg : List Int) (cipherBin : List Nat) (cp : List (List Nat))
    (keyLen fuel : Nat) (key : List Nat) : ClimbState :=
  let plaintext := cipherBin.map (fun idx => key.indexOf idx)
  climbLoop qg cp keyLen fuel
    { key := key
      plaintext := plaintext
      maxFitness := 0
      nbrKeys := 0
      betterKey := true }

/-! ## `Breaker.break_cipher` -/

/-- The state of the restart loop of `break_cipher`.  `roundCntr` mirrors
the Python loop variable `round_cntr` (the 0-based index of the round most
recently executed); `performed` is instrumentation not present in the
source, counting how many loop iterations have actually run, which is the
quantity the specification's `nbr_rounds` talks about. -/
structure BCState where
  localMax : Int
  hit : Nat
  key : List Nat
  bestKey : List Nat
  nbrKeys : Nat
  roundCntr : Nat
  performed : Nat
deriving DecidableEq, Repr

/-- The body of `for round_cntr in range(max_rounds)` (lines 412-423 of
`breaker.py`), parameterized by the per-round procedure `rp` which embeds
`random.shuffle(key)` followed by `self._hill_climbing(key, ...)`: given
the round index and the current key, `rp` returns the mutated key, the
local-maximum fitness and the number of keys evaluated.  The `break`
statement is the early return when the incremented hit counter equals
`consolidate`. -/
def breakLoopGo (rp : Nat → List Nat → List Nat × Int × Nat) (consolidate : Int) :
    List Nat → BCState → BCState
  | [], s => s
  | i :: rest, s =>
    let (key', fitness, tmpNbrKeys) := rp i s.key
    let s1 : BCState := { s with
                          key := key'
                          nbrKeys := s.nbrKeys + tmpNbrKeys
                          roundCntr := i
                          performed := s.performed + 1 }
    if fitness > s1.localMax then
      breakLoopGo rp consolidate rest
        { s1 with
          localMax := fitness
          hit := 1
          bestKey := key' }
    else if fitness = s1.localMax then
      let s2 := { s1 with hit := s1.hit + 1 }
      if (s2.hit : Int) = consolidate then s2
      else breakLoopGo rp consolidate rest s2
    else breakLoopGo rp consolidate rest s1

/-- The per-round procedure actually used by `break_cipher`:
`random.shuffle(key)` (embedded as the oracle `shuffles`, one reordering
per round index) followed by `_hill_climbing`. -/
def roundProc (qg : List Int) (cipherBin : List Nat) (cp : List (List Nat))
    (keyLen fuel : Nat) (shuffles : Nat → List Nat → List Nat)
    (i : Nat) (key : List Nat) : List Nat × Int × Nat :=
  let shuffled := shuffles i key
  let cs := hillClimbing qg cipherBin cp keyLen fuel shuffled
  (cs.key, cs.maxFitness, cs.nbrKeys)

/-- The result object of `break_cipher`.  The wall-clock fields `seconds`
and `keys_per_second` measure real time and are not modelled. -/
structure BreakerResultM where
  ciphertext : List PChar
  plaintext : List PChar
  key : List PChar
  alphabet : List PChar
  fitness : ℚ
  nbrKeys : Nat
  nbrRounds : Nat
deriving DecidableEq, Repr

/-- `Breaker.break_cipher`: validate the two parameters, project the
ciphertext (error when fewer than 4 symbols survive), build
`char_positions`, run up to `max_rounds` shuffled hill-climbing rounds with
the consolidation early exit, then build the winning `Key` object and the
result.  `shuffles` embeds `random.shuffle` and `fuel` bounds the climb
loops. -/
def break_cipher (alphabet : List PChar) (qg : List Int)
    (shuffles : Nat → List Nat → List Nat) (fuel : Nat)
    (ciphertext : List PChar) (maxRounds consolidate : Int) :
    Except String BreakerResultM :=
  if ¬ (1 ≤ maxRounds ∧ maxRounds ≤ 10000) then
    .error "maximum number of rounds not in the valid range 1..10000"
  else if ¬ (1 ≤ consolidate ∧ consolidate ≤ 30) then
    .error "consolidate parameter out of valid range 1..30"
  else
    let cipherBin := textProject alphabet ciphertext
    if cipherBin.length < 4 then .error "ciphertext is too short"
    else
      let charPositions := (List.range alphabet.length).map
        (fun idx => (cipherBin.enum.filter (fun p => p.2 = idx)).map (fun p => p.1))
      let keyLen := alphabet.length
      let key := List.range keyLen
      let st := breakLoopGo
        (roundProc qg cipherBin charPositions keyLen fuel shuffles) consolidate
        (List.range maxRounds.toNat)
        { localMax := 0
          hit := 1
          key := key
          bestKey := key
          nbrKeys := 0
          roundCntr := 0
          performed := 0 }
      let keyStr := st.bestKey.map (fun x => alphabet.getD x (.low 0))
      match mkKey keyStr alphabet with
      | .error e => .error e
      | .ok K =>
        .ok { ciphertext := ciphertext
              plaintext := Key.decode K ciphertext
              key := keyStr
              alphabet := alphabet
              fitness := (st.localMax : ℚ) / ((cipherBin.length : ℚ) - 3) / 10
              nbrKeys := st.nbrKeys
              nbrRounds := st.roundCntr }

/-! ## Specification-side definitions

These do not come from the source; they state, in a form independent of the
orchestrator loop's control flow, the quantities the specification talks
about, so that the loop can be compared against them. -/

/-- The sequence of hill-climb scores the rounds would produce if the loop
never exited early: round `i` runs the per-round procedure on the key left
behind by round `i - 1`. -/
def fitSeq (rp : Nat → List Nat → List Nat × Int × Nat) :
    List Nat → List Nat → List Int
  | [], _ => []
  | i :: rest, key =>
    let (key', fitness, _) := rp i key
    fitness :: fitSeq rp rest key'

/-- Modelled from the spec (§4.4 and §8 of the design): the consolidation
counting rule applied to a score sequence, independent of the restart
loop.  Starting from best-so-far `m` and hit counter `h`, a strictly
greater score resets the counter to 1, an equal score increments it, a
smaller score changes nothing; the returned value is the position of the
first score whose increment brings the counter exactly to `consolidate`,
or `none` when that never happens. -/
def firstTrigger (consolidate : Int) (m : Int) (h : Nat) : List Int → Option Nat
  | [] => none
  | f :: rest =>
    if f > m then (firstTrigger consolidate f 1 rest).map (· + 1)
    else if f = m then
      if ((h + 1 : Nat) : Int) = consolidate then some 0
      else (firstTrigger consolidate m (h + 1) rest).map (· + 1)
    else (firstTrigger consolidate m h rest).map (· + 1)

/-- The key invariant of the data model: a key over an alphabet of `n`
symbols is a permutation of the indices `0 .. n - 1` (every value appears
exactly once). -/
def IsPerm (n : Nat) (l : List Nat) : Prop := List.Perm l (List.range n)

instance (n : Nat) (l : List Nat) : Decidable (IsPerm n l) := by
  unfold IsPerm; infer_instance

/-- A string made only of lowercase cased characters — the usual shape of
an alphabet argument ("abcdefghijklmnopqrstuvwxyz"). -/
def AllLow (l : List PChar) : Prop := ∀ c ∈ l, ∃ n, c = PChar.low n

instance (l : List PChar) : Decidable (AllLow l) := by
  unfold AllLow
  haveI : DecidablePred (fun c : PChar => ∃ n, c = PChar.low n) := fun c =>
    match c with
    | .low n => isTrue ⟨n, rfl⟩
    | .up _ => isFalse (by rintro ⟨m, h⟩; exact PChar.noConfusion h)
    | .other _ => isFalse (by rintro ⟨m, h⟩; exact PChar.noConfusion h)
  infer_instance

/-! ## Helper lemmas -/

theorem scoreGo_count (qg : List Int) :
    ∀ (l : List Nat) (code : Nat) (acc : Int) (n : Nat),
      (scoreGo qg l code acc n).2 = n + l.length := by
  intro l
  induction l with
  | nil => intro code acc n; simp [scoreGo]
  | cons c rest ih =>
    intro code acc n
    simp only [scoreGo, ih, List.length_cons]
    omega

theorem quadStep_lt (code sym : Nat) (h : sym < 32) :
    quadStep code sym < 32 * 32 * 32 * 32 := by
  have h1 : code &&& 0x7FFF ≤ 0x7FFF := Nat.and_le_right
  have h2 : (code &&& 0x7FFF) <<< 5 = (code &&& 0x7FFF) * 32 := by
    simp [Nat.shiftLeft_eq]
  unfold quadStep
  omega

/-! ## C10 -/

/-- C10: every quadgram-table index formed by the rolling-window update
`((code & 0x7FFF) << 5) + symbol` lies in `[0, 2^20)` whenever the new
symbol index is below 32 (in particular below any alphabet length of at
most 32), and the three-symbol seed codes formed before the window starts
rolling are also below `2^20`; hence every lookup in the
1,048,576-entry quadgram table is within bounds. -/
theorem quadgram_index_in_bounds :
    (∀ code sym : Nat, sym < 32 → quadStep code sym < 1048576) ∧
    (∀ p0 p1 p2 : Nat, p0 < 32 → p1 < 32 → p2 < 32 →
      (p0 <<< 10) + (p1 <<< 5) + p2 < 1048576) ∧
    (∀ c0 c1 c2 : Nat, c0 < 32 → c1 < 32 → c2 < 32 →
      (((c0 <<< 5) + c1) <<< 5) + c2 < 1048576) := by
  refine ⟨fun code sym h => quadStep_lt code sym h, ?_, ?_⟩
  · intro p0 p1 p2 h0 h1 h2
    have e0 : p0 <<< 10 = p0 * 1024 := by simp [Nat.shiftLeft_eq]
    have e1 : p1 <<< 5 = p1 * 32 := by simp [Nat.shiftLeft_eq]
    omega
  · intro c0 c1 c2 h0 h1 h2
    have e0 : c0 <<< 5 = c0 * 32 := by simp [Nat.shiftLeft_eq]
    have e1 : ((c0 <<< 5) + c1) <<< 5 = ((c0 <<< 5) + c1) * 32 := by
      simp [Nat.shiftLeft_eq]
    omega

/-- Witness for C10 at a concrete input. -/
theorem quadgram_index_in_bounds_witness :
    (3 : Nat) < 32 ∧ quadStep 999999 3 < 1048576 :=
  ⟨by decide, quadgram_index_in_bounds.1 999999 3 (by decide)⟩

/-! ## C6 -/

/-- C6: `calc_fitness` fails with the insufficient-input error exactly when
the text projects to fewer than 4 alphabet symbols (no quadgram window can
be formed), and with at least 4 projected symbols it returns a score. -/
theorem calc_fitness_error_iff (alphabet : List PChar) (qg : List Int)
    (txt : List PChar) :
    (calc_fitness alphabet qg txt =
        .error "More than three characters from the given alphabet are required"
      ↔ (textProject alphabet txt).length < 4) ∧
    (4 ≤ (textProject alphabet txt).length →
      ∃ q, calc_fitness alphabet qg txt = .ok q) := by
  unfold calc_fitness calc_fitness_bin
  rcases hp : textProject alphabet txt with _ | ⟨c0, _ | ⟨c1, _ | ⟨c2, rest⟩⟩⟩ <;>
    simp_all [scoreGo_count]
  constructor
  · rcases rest with _ | ⟨c3, rest'⟩ <;> simp
  · intro h
    rcases rest with _ | ⟨c3, rest'⟩
    · simp at h
    · simp

/-! ## C4 -/

theorem mkKey_error_messages (key alphabet : List PChar) (e : String)
    (h : mkKey key alphabet = .error e) :
    e = "alphabet characters must be unique" ∨
    e = "key characters must be unique" ∨
    e = "key must be as long as the alphabet" ∨
    e = "key must use the same set of characters than the alphabet" := by
  unfold mkKey check_alphabet check_key at h
  by_cases h1 : (strLower alphabet).Nodup
  · by_cases h2 : (strLower key).Nodup
    · by_cases h3 : (strLower key).length ≠ (strLower alphabet).length
      · simp [h1, h2, h3] at h
        simp [h]
      · by_cases h4 : ¬ (∀ c ∈ strLower key, c ∈ strLower alphabet) ∨
            ¬ (∀ c ∈ strLower alphabet, c ∈ strLower key)
        · simp only [h1, if_true, h2, not_true, if_false, h3, if_neg h3] at h
          rw [if_pos h4] at h
          simp at h
          simp [h]
        · simp only [h1, if_true, h2, not_true, if_false, h3, if_neg h3] at h
          rw [if_neg h4] at h
          simp at h
    · simp [h1, h2] at h
      simp [h]
  · simp [h1] at h
    simp [h]

/-- C4: `break_cipher` reports a range error precisely when `max_rounds`
lies outside `[1, 10000]` or `consolidate` lies outside `[1, 30]`; the two
checks run before the ciphertext is projected or any search state is
touched (in this embedding the error return is produced before any other
expression of the function is evaluated, so no breaker state changes). -/
theorem break_cipher_range_error_iff (alphabet : List PChar) (qg : List Int)
    (shuffles : Nat → List Nat → List Nat) (fuel : Nat)
    (ciphertext : List PChar) (maxRounds consolidate : Int) :
    (break_cipher alphabet qg shuffles fuel ciphertext maxRounds consolidate =
        .error "maximum number of rounds not in the valid range 1..10000" ∨
     break_cipher alphabet qg shuffles fuel ciphertext maxRounds consolidate =
        .error "consolidate parameter out of valid range 1..30")
    ↔ (¬ (1 ≤ maxRounds ∧ maxRounds ≤ 10000) ∨
       ¬ (1 ≤ consolidate ∧ consolidate ≤ 30)) := by
  unfold break_cipher
  dsimp only
  split
  · simp_all
  · split
    · simp_all
    · next hmr hc =>
      simp only [not_not] at hmr hc
      split
      · simp_all
      · split
        · next e heq =>
          rcases mkKey_error_messages _ _ _ heq with h | h | h | h <;>
            subst h <;> simp_all
        · simp_all

/-! ## C1: the consolidation stopping rule -/

theorem breakLoopGo_performed (rp : Nat → List Nat → List Nat × Int × Nat)
    (c : Int) :
    ∀ (idxs : List Nat) (s : BCState),
      (breakLoopGo rp c idxs s).performed =
        s.performed +
          (match firstTrigger c s.localMax s.hit (fitSeq rp idxs s.key) with
           | some i => i + 1
           | none => idxs.length) := by
  intro idxs
  induction idxs with
  | nil => intro s; simp [breakLoopGo, fitSeq, firstTrigger]
  | cons i rest ih =>
    intro s
    rcases hrp : rp i s.key with ⟨key', fitness, nk⟩
    simp only [breakLoopGo, fitSeq, hrp, firstTrigger]
    by_cases hgt : fitness > s.localMax
    · rw [if_pos hgt, if_pos hgt, ih]
      rcases hft : firstTrigger c fitness 1 (fitSeq rp rest key') with _ | j <;>
        simp only [hft, Option.map_none', Option.map_some', List.length_cons] <;>
        simp [Nat.add_assoc, Nat.add_comm, Nat.add_left_comm]
    · by_cases heq : fitness = s.localMax
      · by_cases hcons : ((s.hit + 1 : Nat) : Int) = c
        · rw [if_neg hgt, if_pos heq, if_pos hcons, if_neg hgt, if_pos heq,
            if_pos hcons]
        · rw [if_neg hgt, if_pos heq, if_neg hcons, if_neg hgt, if_pos heq,
            if_neg hcons, ih]
          rcases hft : firstTrigger c s.localMax (s.hit + 1) (fitSeq rp rest key') with _ | j <;>
            simp only [hft, Option.map_none', Option.map_some', List.length_cons] <;>
            simp [Nat.add_assoc, Nat.add_comm, Nat.add_left_comm]
      · rw [if_neg hgt, if_neg heq, if_neg hgt, if_neg heq, ih]
        rcases hft : firstTrigger c s.localMax s.hit (fitSeq rp rest key') with _ | j <;>
          simp only [hft, Option.map_none', Option.map_some', List.length_cons] <;>
          simp [Nat.add_assoc, Nat.add_comm, Nat.add_left_comm]

theorem firstTrigger_one_eq_none :
    ∀ (fs : List Int) (m : Int) (h : Nat), 1 ≤ h →
      firstTrigger 1 m h fs = none := by
  intro fs
  induction fs with
  | nil => intro m h _; rfl
  | cons f rest ih =>
    intro m h hh
    unfold firstTrigger
    by_cases hgt : f > m
    · rw [if_pos hgt, ih f 1 le_rfl]
      rfl
    · by_cases heq : f = m
      · have hcast : ((h + 1 : Nat) : Int) ≠ 1 := by
          intro hc
          have : h + 1 = 1 := by exact_mod_cast hc
          omega
        rw [if_neg hgt, if_pos heq, if_neg hcast, ih m (h + 1) (by omega)]
        rfl
      · rw [if_neg hgt, if_neg heq, ih m h hh]
        rfl

/-- C1 (amended): in the restart loop of `break_cipher`, a round whose
score is strictly greater than the best so far resets the hit counter to 1
with no exit check, and a round exactly equal increments the counter, the
loop exiting immediately exactly when that increment makes the counter
equal `consolidate`.  Equivalently, the number of rounds performed is
`i + 1` where `i` is the position of the first score in the (exit-free)
round-score sequence that equals the running best-so-far (initialized to 0,
with hit counter initialized to 1 before any round) and whose increment
reaches `consolidate` — or the full `max_rounds` budget when no such round
exists.  In particular, for `consolidate = 1` the consolidation exit never
fires and the entire budget is always spent. -/
theorem break_rounds_consolidation (rp : Nat → List Nat → List Nat × Int × Nat)
    (maxRounds : Nat) (consolidate : Int) (key0 : List Nat) :
    ((breakLoopGo rp consolidate (List.range maxRounds)
        ⟨0, 1, key0, key0, 0, 0, 0⟩).performed =
      (match firstTrigger consolidate 0 1 (fitSeq rp (List.range maxRounds) key0) with
       | some i => i + 1
       | none => maxRounds)) ∧
    (consolidate = 1 →
      (breakLoopGo rp consolidate (List.range maxRounds)
          ⟨0, 1, key0, key0, 0, 0, 0⟩).performed = maxRounds) := by
  constructor
  · rw [breakLoopGo_performed]
    simp [List.length_range]
  · intro hc
    subst hc
    rw [breakLoopGo_performed]
    rw [firstTrigger_one_eq_none _ 0 1 le_rfl]
    simp [List.length_range]

/-- Witness for C1's amended theorem: with `consolidate = 1` and two rounds
each scoring 5, both rounds run. -/
theorem break_rounds_consolidation_witness :
    (breakLoopGo (fun _ k => (k, 5, 0)) 1 (List.range 2)
        ⟨0, 1, [0], [0], 0, 0, 0⟩).performed = 2 :=
  (break_rounds_consolidation (fun _ k => (k, 5, 0)) 2 1 [0]).2 rfl

/-- Counterexample to C1 as stated: with `consolidate = 1`, all three
rounds run even though every round reproduces the same local-maximum score
(the claim says the search stops at round 1, i.e. with 1 round performed).
The third conjunct exhibits the same behavior through `break_cipher`
itself: alphabet "ab", ciphertext "aaaa", a quadgram table scoring code 0
with 5, `max_rounds = 3`, `consolidate = 1`; every round climbs to the
same score 5, yet all three rounds run — `nbr_keys = 6` counts 2 trial
keys in each of 3 rounds, not the 2 of a single round. -/
theorem break_rounds_consolidate_one_cex :
    (breakLoopGo (fun _ k => (k, 5, 2)) 1 (List.range 3)
        ⟨0, 1, [0, 1], [0, 1], 0, 0, 0⟩).performed = 3 ∧
    ¬ (breakLoopGo (fun _ k => (k, 5, 2)) 1 (List.range 3)
        ⟨0, 1, [0, 1], [0, 1], 0, 0, 0⟩).performed = 1 ∧
    (break_cipher [PChar.low 0, PChar.low 1] [5] (fun _ _ => [1, 0]) 5
        [PChar.low 0, PChar.low 0, PChar.low 0, PChar.low 0] 3 1).map
      (fun r => r.nbrKeys) = .ok 6 := by
  refine ⟨by decide, by decide, ?_⟩
  rfl

/-! ## C2: `nbr_rounds` versus rounds performed -/

theorem breakLoopGo_roundCntr (rp : Nat → List Nat → List Nat × Int × Nat)
    (c : Int) :
    ∀ (m k : Nat) (s : BCState),
      s.performed = k → (1 ≤ k → s.roundCntr + 1 = k) → 1 ≤ k + m →
      (breakLoopGo rp c (List.range' k m) s).performed =
        (breakLoopGo rp c (List.range' k m) s).roundCntr + 1 := by
  intro m
  induction m with
  | zero =>
    intro k s hp hr hk
    simp only [List.range', breakLoopGo]
    omega
  | succ m ih =>
    intro k s hp hr hk
    rw [List.range'_succ]
    rcases hrp : rp k s.key with ⟨key', fitness, nk⟩
    simp only [breakLoopGo, hrp]
    by_cases hgt : fitness > s.localMax
    · rw [if_pos hgt]
      exact ih (k + 1) _ (by simp [hp]) (by simp) (by omega)
    · by_cases heq : fitness = s.localMax
      · by_cases hcons : ((s.hit + 1 : Nat) : Int) = c
        · rw [if_neg hgt, if_pos heq, if_pos hcons]
          simp [hp]
        · rw [if_neg hgt, if_pos heq, if_neg hcons]
          exact ih (k + 1) _ (by simp [hp]) (by simp) (by omega)
      · rw [if_neg hgt, if_neg heq]
        exact ih (k + 1) _ (by simp [hp]) (by simp) (by omega)

/-- C2 (the bug): for every successful `break_cipher` invocation, the
`nbr_rounds` field of the result is one less than the number of restart
rounds actually performed — the code stores the final value of the Python
loop variable `round_cntr`, which is the 0-based index of the last round,
not the count of rounds run. -/
theorem break_cipher_nbr_rounds_off_by_one (alphabet : List PChar)
    (qg : List Int) (shuffles : Nat → List Nat → List Nat) (fuel : Nat)
    (ciphertext : List PChar) (maxRounds consolidate : Int)
    (r : BreakerResultM)
    (h : break_cipher alphabet qg shuffles fuel ciphertext maxRounds consolidate
      = .ok r) :
    r.nbrRounds + 1 =
      (breakLoopGo
        (roundProc qg (textProject alphabet ciphertext)
          ((List.range alphabet.length).map
            (fun idx => ((textProject alphabet ciphertext).enum.filter
              (fun p => p.2 = idx)).map (fun p => p.1)))
          alphabet.length fuel shuffles) consolidate
        (List.range maxRounds.toNat)
        ⟨0, 1, List.range alphabet.length, List.range alphabet.length, 0, 0, 0⟩).performed := by
  unfold break_cipher at h
  dsimp only at h
  split at h
  · exact absurd h (by simp)
  · next hmr =>
    split at h
    · exact absurd h (by simp)
    · split at h
      · exact absurd h (by simp)
      · split at h
        · exact absurd h (by simp)
        · next K hK =>
          simp only [Except.ok.injEq] at h
          rw [← h]
          have hperf := breakLoopGo_roundCntr
            (roundProc qg (textProject alphabet ciphertext)
              ((List.range alphabet.length).map
                (fun idx => ((textProject alphabet ciphertext).enum.filter
                  (fun p => p.2 = idx)).map (fun p => p.1)))
              alphabet.length fuel shuffles) consolidate
            maxRounds.toNat 0
            ⟨0, 1, List.range alphabet.length, List.range alphabet.length, 0, 0, 0⟩
            rfl (by omega) (by push_neg at hmr; omega)
          rw [← List.range_eq_range'] at hperf
          rw [hperf]

/-- Witness for C2's theorem: a concrete one-round break in which the
result's `nbr_rounds` is 0 while one round was performed. -/
theorem break_cipher_nbr_rounds_off_by_one_witness :
    (break_cipher [PChar.low 0, PChar.low 1] [] (fun _ k => k) 5
        [PChar.low 0, PChar.low 1, PChar.low 0, PChar.low 1] 1 3).map
      (fun r => r.nbrRounds) = .ok 0 ∧
    (breakLoopGo
        (roundProc [] (textProject [PChar.low 0, PChar.low 1]
            [PChar.low 0, PChar.low 1, PChar.low 0, PChar.low 1])
          ((List.range ([PChar.low 0, PChar.low 1] : List PChar).length).map
            (fun idx => ((textProject [PChar.low 0, PChar.low 1]
                [PChar.low 0, PChar.low 1, PChar.low 0, PChar.low 1]).enum.filter
              (fun p => p.2 = idx)).map (fun p => p.1)))
          ([PChar.low 0, PChar.low 1] : List PChar).length 5 (fun _ k => k)) 3
        (List.range (1 : Int).toNat)
        ⟨0, 1, List.range ([PChar.low 0, PChar.low 1] : List PChar).length,
          List.range ([PChar.low 0, PChar.low 1] : List PChar).length,
          0, 0, 0⟩).performed = 1 := by
  have h1 : (break_cipher [PChar.low 0, PChar.low 1] [] (fun _ k => k) 5
      [PChar.low 0, PChar.low 1, PChar.low 0, PChar.low 1] 1 3).map
      (fun r => r.nbrRounds) = .ok 0 := rfl
  refine ⟨h1, ?_⟩
  rcases hbc : break_cipher [PChar.low 0, PChar.low 1] [] (fun _ k => k) 5
      [PChar.low 0, PChar.low 1, PChar.low 0, PChar.low 1] 1 3 with e | r
  · rw [hbc] at h1
    exact absurd h1 (by simp [Except.map])
  · have h2 := break_cipher_nbr_rounds_off_by_one _ _ _ _ _ _ _ _ hbc
    rw [hbc] at h1
    simp [Except.map] at h1
    omega

/-! ## C8: the key is always a permutation -/

theorem getD_eq_getElem_of_lt (l : List Nat) (i d : Nat) (h : i < l.length) :
    l.getD i d = l[i] := by
  simp [List.getD_eq_getElem?_getD, List.getElem?_eq_getElem h]

theorem swap_set_perm (l : List Nat) (i j : Nat) (hi : i < l.length)
    (hj : j < l.length) :
    List.Perm ((l.set i (l.getD j 0)).set j (l.getD i 0)) l := by
  by_cases hij : i = j
  · subst hij
    rw [List.set_set]
    rw [getD_eq_getElem_of_lt l i 0 hi]
    have : l.set i l[i] = l := by
      apply List.ext_getElem
      · simp
      · intro n h1 h2
        rw [List.getElem_set]
        split <;> simp_all
    rw [this]
  · rw [List.perm_iff_count]
    intro x
    rw [getD_eq_getElem_of_lt l i 0 hi, getD_eq_getElem_of_lt l j 0 hj]
    have hj' : j < (l.set i l[j]).length := by simpa using hj
    rw [List.count_set _ _ _ _ hj', List.count_set _ _ _ _ hi]
    have hgj : (l.set i l[j])[j] = l[j] := by
      rw [List.getElem_set]
      simp [hij]
    rw [hgj]
    have hcnt : (if (l[i] == x) = true then 1 else 0) ≤ l.count x := by
      split
      · next hbeq =>
        have : l[i] = x := by simpa using hbeq
        rw [← this]
        have : 0 < l.count l[i] := List.count_pos_iff.mpr (List.getElem_mem hi)
        omega
      · omega
    omega

theorem IsPerm.length_eq {n : Nat} {l : List Nat} (h : IsPerm n l) :
    l.length = n := by
  have := List.Perm.length_eq h
  simpa using this

theorem trialStep_key_perm (n : Nat) (qg : List Int) (cp : List (List Nat))
    (s : ClimbState) (idx1 idx2 : Nat) (h1 : idx1 < n) (h2 : idx2 < n)
    (hk : IsPerm n s.key) : IsPerm n (trialStep qg cp s idx1 idx2).key := by
  unfold trialStep
  dsimp only
  split
  · have hl := hk.length_eq
    exact List.Perm.trans
      (swap_set_perm s.key idx1 idx2 (hl ▸ h1) (hl ▸ h2)) hk
  · exact hk

theorem keyPairs_bounds (n : Nat) :
    ∀ p ∈ keyPairs n, p.1 < n ∧ p.2 < n := by
  intro p hp
  unfold keyPairs at hp
  rw [List.mem_flatMap] at hp
  obtain ⟨i, hi, hmem⟩ := hp
  rw [List.mem_range] at hi
  rw [List.mem_map] at hmem
  obtain ⟨j, hj, hpj⟩ := hmem
  rw [List.mem_range'_1] at hj
  subst hpj
  constructor
  · omega
  · omega

theorem foldl_trialStep_perm (n : Nat) (qg : List Int) (cp : List (List Nat)) :
    ∀ (ps : List (Nat × Nat)) (s : ClimbState),
      (∀ p ∈ ps, p.1 < n ∧ p.2 < n) → IsPerm n s.key →
      IsPerm n ((ps.foldl (fun st p => trialStep qg cp st p.1 p.2) s)).key := by
  intro ps
  induction ps with
  | nil => intro s _ hk; exact hk
  | cons p rest ih =>
    intro s hb hk
    simp only [List.foldl_cons]
    exact ih _ (fun q hq => hb q (List.mem_cons_of_mem p hq))
      (trialStep_key_perm n qg cp s p.1 p.2 (hb p (List.mem_cons_self p rest)).1
        (hb p (List.mem_cons_self p rest)).2 hk)

theorem runPass_key_perm (n : Nat) (qg : List Int) (cp : List (List Nat))
    (s : ClimbState) (hk : IsPerm n s.key) :
    IsPerm n (runPass qg cp n s).key := by
  unfold runPass
  exact foldl_trialStep_perm n qg cp (keyPairs n) _ (keyPairs_bounds n) hk

theorem climbLoop_key_perm (n : Nat) (qg : List Int) (cp : List (List Nat)) :
    ∀ (fuel : Nat) (s : ClimbState), IsPerm n s.key →
      IsPerm n (climbLoop qg cp n fuel s).key := by
  intro fuel
  induction fuel with
  | zero => intro s hk; exact hk
  | succ fuel ih =>
    intro s hk
    unfold climbLoop
    split
    · exact ih _ (runPass_key_perm n qg cp _ hk)
    · exact hk

theorem hillClimbing_key_perm (n : Nat) (qg : List Int) (cipherBin : List Nat)
    (cp : List (List Nat)) (fuel : Nat) (key : List Nat) (hk : IsPerm n key) :
    IsPerm n (hillClimbing qg cipherBin cp n fuel key).key :=
  climbLoop_key_perm n qg cp fuel _ hk

theorem roundProc_key_perm (n : Nat) (qg : List Int) (cipherBin : List Nat)
    (cp : List (List Nat)) (fuel : Nat) (shuffles : Nat → List Nat → List Nat)
    (hsh : ∀ i k, List.Perm (shuffles i k) k) (i : Nat) (key : List Nat)
    (hk : IsPerm n key) :
    IsPerm n (roundProc qg cipherBin cp n fuel shuffles i key).1 := by
  unfold roundProc
  dsimp only
  exact hillClimbing_key_perm n qg cipherBin cp fuel _
    (List.Perm.trans (hsh i key) hk)

theorem breakLoopGo_key_perm (n : Nat)
    (rp : Nat → List Nat → List Nat × Int × Nat)
    (hrp : ∀ i k, IsPerm n k → IsPerm n (rp i k).1) (c : Int) :
    ∀ (idxs : List Nat) (s : BCState), IsPerm n s.key → IsPerm n s.bestKey →
      IsPerm n (breakLoopGo rp c idxs s).key ∧
      IsPerm n (breakLoopGo rp c idxs s).bestKey := by
  intro idxs
  induction idxs with
  | nil => intro s hk hb; exact ⟨hk, hb⟩
  | cons i rest ih =>
    intro s hk hb
    rcases hr : rp i s.key with ⟨key', fitness, nk⟩
    have hk' : IsPerm n key' := by
      have := hrp i s.key hk
      rw [hr] at this
      exact this
    simp only [breakLoopGo, hr]
    split
    · exact ih _ hk' hk'
    · split
      · split
        · exact ⟨hk', hb⟩
        · exact ih _ hk' hb
      · exact ih _ hk' hb

/-- C8: the key manipulated by `break_cipher` and the hill climber is
always a valid permutation of the alphabet indices: the initial key
`list(range(key_len))` is a permutation, a shuffled permutation is a
permutation, every pair trial of the hill climber leaves a permutation (it
either leaves the key unchanged or commits one pairwise swap), a whole
climb leaves a permutation, and consequently after any prefix of
`break_cipher`'s rounds both the current key and the recorded best key are
permutations. -/
theorem key_always_permutation (n : Nat) :
    IsPerm n (List.range n) ∧
    (∀ (qg : List Int) (cp : List (List Nat)) (s : ClimbState) (idx1 idx2 : Nat),
      idx1 < n → idx2 < n → IsPerm n s.key →
      IsPerm n (trialStep qg cp s idx1 idx2).key) ∧
    (∀ (qg : List Int) (cipherBin : List Nat) (cp : List (List Nat))
        (fuel : Nat) (key : List Nat), IsPerm n key →
      IsPerm n (hillClimbing qg cipherBin cp n fuel key).key) ∧
    (∀ (qg : List Int) (cipherBin : List Nat) (cp : List (List Nat))
        (fuel : Nat) (shuffles : Nat → List Nat → List Nat),
      (∀ i k, List.Perm (shuffles i k) k) →
      ∀ (c : Int) (idxs : List Nat) (s : BCState),
        IsPerm n s.key → IsPerm n s.bestKey →
        IsPerm n (breakLoopGo
          (roundProc qg cipherBin cp n fuel shuffles) c idxs s).key ∧
        IsPerm n (breakLoopGo
          (roundProc qg cipherBin cp n fuel shuffles) c idxs s).bestKey) := by
  refine ⟨List.Perm.refl _, ?_, ?_, ?_⟩
  · intro qg cp s idx1 idx2 h1 h2 hk
    exact trialStep_key_perm n qg cp s idx1 idx2 h1 h2 hk
  · intro qg cipherBin cp fuel key hk
    exact hillClimbing_key_perm n qg cipherBin cp fuel key hk
  · intro qg cipherBin cp fuel shuffles hsh c idxs s hk hb
    exact breakLoopGo_key_perm n _
      (fun i k hk' => roundProc_key_perm n qg cipherBin cp fuel shuffles hsh i k hk')
      c idxs s hk hb

/-- Witness for C6 at a concrete input: a 3-symbol text fails, a 4-symbol
text succeeds. -/
theorem calc_fitness_error_iff_witness :
    ((calc_fitness [PChar.low 0, PChar.low 1] []
        [PChar.low 0, PChar.low 1, PChar.low 0] =
          .error "More than three characters from the given alphabet are required"
        ↔ (textProject [PChar.low 0, PChar.low 1]
            [PChar.low 0, PChar.low 1, PChar.low 0]).length < 4) ∧
      (4 ≤ (textProject [PChar.low 0, PChar.low 1]
          [PChar.low 0, PChar.low 1, PChar.low 0]).length →
        ∃ q, calc_fitness [PChar.low 0, PChar.low 1] []
          [PChar.low 0, PChar.low 1, PChar.low 0] = .ok q)) ∧
    4 ≤ (textProject [PChar.low 0, PChar.low 1]
        [PChar.low 0, PChar.low 1, PChar.low 0, PChar.low 1]).length ∧
    (∃ q, calc_fitness [PChar.low 0, PChar.low 1] []
        [PChar.low 0, PChar.low 1, PChar.low 0, PChar.low 1] = .ok q) :=
  ⟨calc_fitness_error_iff [PChar.low 0, PChar.low 1] []
      [PChar.low 0, PChar.low 1, PChar.low 0],
   by decide,
   (calc_fitness_error_iff [PChar.low 0, PChar.low 1] []
      [PChar.low 0, PChar.low 1, PChar.low 0, PChar.low 1]).2 (by decide)⟩

/-! ## C7: acceptance and exact rollback in a pair trial -/

theorem setPositions_length (positions : List Nat) :
    ∀ (pt : List Nat) (v : Nat),
      (setPositions pt positions v).length = pt.length := by
  induction positions with
  | nil => intro pt v; rfl
  | cons p rest ih =>
    intro pt v
    show (setPositions (pt.set p v) rest v).length = pt.length
    rw [ih (pt.set p v) v]
    simp

theorem setPositions_getD (positions : List Nat) :
    ∀ (pt : List Nat) (v q d : Nat),
      (setPositions pt positions v).getD q d =
        if q ∈ positions ∧ q < pt.length then v else pt.getD q d := by
  induction positions with
  | nil => intro pt v q d; simp [setPositions]
  | cons p rest ih =>
    intro pt v q d
    show (setPositions (pt.set p v) rest v).getD q d = _
    rw [ih (pt.set p v) v q d]
    by_cases hq : q ∈ rest
    · by_cases hlen : q < pt.length
      · simp [hq, hlen]
      · have hlen' : ¬ q < (pt.set p v).length := by simpa using hlen
        have e1 : (pt.set p v)[q]? = none := List.getElem?_eq_none (by simp; omega)
        have e2 : pt[q]? = none := List.getElem?_eq_none (by omega)
        simp [hq, hlen, hlen', List.getD_eq_getElem?_getD, e1, e2]
    · by_cases hpq : p = q
      · subst hpq
        by_cases hlen : p < pt.length
        · simp [hq, hlen, List.getD_eq_getElem?_getD, List.getElem?_set,
            List.getElem?_eq_getElem hlen]
        · have h1 : pt.set p v = pt := List.set_eq_of_length_le (by omega)
          simp [hq, hlen, h1]
      · have hset : (pt.set p v).getD q d = pt.getD q d := by
          simp [List.getD_eq_getElem?_getD, List.getElem?_set, hpq]
        have hlen' : (pt.set p v).length = pt.length := by simp
        rw [hset, hlen']
        have hqcons : ¬ q ∈ p :: rest := by
          intro hc
          rcases List.mem_cons.mp hc with hc | hc
          · exact hpq hc.symm
          · exact hq hc
        simp [hq, hqcons]

theorem setPositions_restore (pt : List Nat) (ps1 ps2 : List Nat)
    (idx1 idx2 : Nat)
    (h1 : ∀ p ∈ ps1, p < pt.length ∧ pt.getD p 0 = idx1)
    (h2 : ∀ p ∈ ps2, p < pt.length ∧ pt.getD p 0 = idx2)
    (hdisj : ∀ p, p ∈ ps1 → p ∉ ps2) :
    setPositions (setPositions
      (setPositions (setPositions pt ps1 idx2) ps2 idx1) ps1 idx1) ps2 idx2
      = pt := by
  have hl1 : (setPositions pt ps1 idx2).length = pt.length :=
    setPositions_length ps1 pt idx2
  have hl2 : (setPositions (setPositions pt ps1 idx2) ps2 idx1).length = pt.length := by
    rw [setPositions_length]; exact hl1
  have hl3 : (setPositions (setPositions (setPositions pt ps1 idx2) ps2 idx1)
      ps1 idx1).length = pt.length := by
    rw [setPositions_length]; exact hl2
  apply List.ext_getElem
  · rw [setPositions_length]; exact hl3
  · intro q hq1 hq2
    have hqlen : q < pt.length := hq2
    rw [← getD_eq_getElem_of_lt _ q 0 hq1, ← getD_eq_getElem_of_lt _ q 0 hq2]
    rw [setPositions_getD, setPositions_getD, setPositions_getD, setPositions_getD]
    rw [hl3, hl2, hl1]
    by_cases hq2' : q ∈ ps2
    · rw [if_pos ⟨hq2', hqlen⟩]
      exact ((h2 q hq2').2).symm
    · rw [if_neg (fun hc => hq2' hc.1)]
      by_cases hq1' : q ∈ ps1
      · rw [if_pos ⟨hq1', hqlen⟩]
        exact ((h1 q hq1').2).symm
      · rw [if_neg (fun hc => hq1' hc.1), if_neg (fun hc => hq2' hc.1),
          if_neg (fun hc => hq1' hc.1)]

/-- C7: in every pair trial of the hill climber, the tentative swap is
committed to the key exactly when the recomputed full-text score strictly
exceeds the best score seen so far in this climb; on non-acceptance
(including ties) the plaintext array is restored exactly to its pre-trial
contents and the key is left unchanged (only the trial counter advances).
The hypotheses are the data-structure invariants of the climb: every
position recorded for a key character holds that character's current
plaintext index, and the two position lists are disjoint. -/
theorem trial_step_acceptance (qg : List Int) (cp : List (List Nat))
    (s : ClimbState) (idx1 idx2 : Nat)
    (h1 : ∀ p ∈ cp.getD (s.key.getD idx1 0) [],
      p < s.plaintext.length ∧ s.plaintext.getD p 0 = idx1)
    (h2 : ∀ p ∈ cp.getD (s.key.getD idx2 0) [],
      p < s.plaintext.length ∧ s.plaintext.getD p 0 = idx2)
    (hdisj : ∀ p, p ∈ cp.getD (s.key.getD idx1 0) [] →
      p ∉ cp.getD (s.key.getD idx2 0) []) :
    (scoreText qg (setPositions
        (setPositions s.plaintext (cp.getD (s.key.getD idx1 0) []) idx2)
        (cp.getD (s.key.getD idx2 0) []) idx1) ≤ s.maxFitness →
      trialStep qg cp s idx1 idx2 = { s with nbrKeys := s.nbrKeys + 1 }) ∧
    (s.maxFitness < scoreText qg (setPositions
        (setPositions s.plaintext (cp.getD (s.key.getD idx1 0) []) idx2)
        (cp.getD (s.key.getD idx2 0) []) idx1) →
      trialStep qg cp s idx1 idx2 =
        { key := (s.key.set idx1 (s.key.getD idx2 0)).set idx2 (s.key.getD idx1 0)
          plaintext := setPositions
            (setPositions s.plaintext (cp.getD (s.key.getD idx1 0) []) idx2)
            (cp.getD (s.key.getD idx2 0) []) idx1
          maxFitness := scoreText qg (setPositions
            (setPositions s.plaintext (cp.getD (s.key.getD idx1 0) []) idx2)
            (cp.getD (s.key.getD idx2 0) []) idx1)
          nbrKeys := s.nbrKeys + 1
          betterKey := true }) := by
  constructor
  · intro hle
    unfold trialStep
    dsimp only
    rw [if_neg (by omega)]
    have hrestore := setPositions_restore s.plaintext
      (cp.getD (s.key.getD idx1 0) []) (cp.getD (s.key.getD idx2 0) [])
      idx1 idx2 h1 h2 hdisj
    rw [hrestore]
  · intro hgt
    unfold trialStep
    dsimp only
    rw [if_pos (by omega)]

/-- Witness for C7 at a concrete input: a rejected trial (tied score)
leaves the state unchanged except for the trial counter. -/
theorem trial_step_acceptance_witness :
    (∀ p ∈ ([[0, 2], [1, 3]] : List (List Nat)).getD
        (([0, 1] : List Nat).getD 0 0) [],
      p < ([0, 1, 0, 1] : List Nat).length ∧
        ([0, 1, 0, 1] : List Nat).getD p 0 = 0) ∧
    (scoreText [] (setPositions
        (setPositions [0, 1, 0, 1] (([[0, 2], [1, 3]] :
          List (List Nat)).getD (([0, 1] : List Nat).getD 0 0) []) 1)
        (([[0, 2], [1, 3]] : List (List Nat)).getD
          (([0, 1] : List Nat).getD 1 0) []) 0) ≤ 0 →
      trialStep [] [[0, 2], [1, 3]] ⟨[0, 1], [0, 1, 0, 1], 0, 0, true⟩ 0 1 =
        { (⟨[0, 1], [0, 1, 0, 1], 0, 0, true⟩ : ClimbState) with nbrKeys := 0 + 1 }) :=
  ⟨by decide,
   (trial_step_acceptance [] [[0, 2], [1, 3]]
      ⟨[0, 1], [0, 1, 0, 1], 0, 0, true⟩ 0 1
      (by decide) (by decide) (by decide)).1⟩

/-- Witness for C8 at a concrete input: one pair trial on a concrete
2-symbol state keeps the key a permutation. -/
theorem key_always_permutation_witness :
    (0 : Nat) < 2 ∧ (1 : Nat) < 2 ∧
    IsPerm 2 (⟨[0, 1], [0, 1, 0, 1], 0, 0, true⟩ : ClimbState).key ∧
    IsPerm 2 (trialStep [] [[0, 2], [1, 3]]
      ⟨[0, 1], [0, 1, 0, 1], 0, 0, true⟩ 0 1).key :=
  ⟨by decide, by decide, by decide,
    (key_always_permutation 2).2.1 [] [[0, 2], [1, 3]]
      ⟨[0, 1], [0, 1, 0, 1], 0, 0, true⟩ 0 1 (by decide) (by decide) (by decide)⟩

/-! ## C5: the ciphertext-length precondition -/

theorem range_map_getD (l : List PChar) (d : PChar) :
    (List.range l.length).map (fun i => l.getD i d) = l := by
  apply List.ext_getElem
  · simp
  · intro n h1 h2
    rw [List.getElem_map, List.getElem_range]
    simp [List.getD_eq_getElem?_getD, List.getElem?_eq_getElem h2]

theorem mkKey_ok_of_perm (k a : List PChar) (hal : (strLower a).Nodup)
    (hperm : List.Perm k a) : ∃ K, mkKey k a = .ok K := by
  have hpl : List.Perm (strLower k) (strLower a) := List.Perm.map pyLower hperm
  have hnk : (strLower k).Nodup := hal.perm hpl.symm
  unfold mkKey check_alphabet check_key
  dsimp only
  rw [if_pos hal]
  dsimp only
  rw [if_neg (not_not_intro hnk)]
  rw [if_neg (not_not_intro hpl.length_eq)]
  rw [if_neg (not_or.mpr ⟨not_not_intro (fun c hc => hpl.mem_iff.mp hc),
    not_not_intro (fun c hc => hpl.mem_iff.mpr hc)⟩)]
  exact ⟨_, rfl⟩

/-- C5: with valid parameters (and `random.shuffle` producing reorderings,
as it always does), `break_cipher` fails with the ciphertext-too-short
error exactly when the case-insensitive projection of the ciphertext
through the alphabet has fewer than 4 symbols, and with at least 4
projected symbols it returns a `BreakerResult`. -/
theorem break_cipher_short_ciphertext (alphabet : List PChar) (qg : List Int)
    (shuffles : Nat → List Nat → List Nat) (fuel : Nat)
    (ciphertext : List PChar) (maxRounds consolidate : Int)
    (hmr1 : 1 ≤ maxRounds) (hmr2 : maxRounds ≤ 10000)
    (hc1 : 1 ≤ consolidate) (hc2 : consolidate ≤ 30)
    (hal : (strLower alphabet).Nodup)
    (hsh : ∀ i k, List.Perm (shuffles i k) k) :
    (break_cipher alphabet qg shuffles fuel ciphertext maxRounds consolidate =
        .error "ciphertext is too short"
      ↔ (textProject alphabet ciphertext).length < 4) ∧
    (4 ≤ (textProject alphabet ciphertext).length →
      (break_cipher alphabet qg shuffles fuel ciphertext maxRounds
        consolidate).isOk = true) := by
  unfold break_cipher
  dsimp only
  rw [if_neg (not_not_intro ⟨hmr1, hmr2⟩), if_neg (not_not_intro ⟨hc1, hc2⟩)]
  by_cases hlen : (textProject alphabet ciphertext).length < 4
  · rw [if_pos hlen]
    constructor
    · simp [hlen]
    · intro h4
      omega
  · rw [if_neg hlen]
    have hbk : IsPerm alphabet.length
        ((breakLoopGo
          (roundProc qg (textProject alphabet ciphertext)
            ((List.range alphabet.length).map
              (fun idx => ((textProject alphabet ciphertext).enum.filter
                (fun p => p.2 = idx)).map (fun p => p.1)))
            alphabet.length fuel shuffles) consolidate
          (List.range maxRounds.toNat)
          ⟨0, 1, List.range alphabet.length, List.range alphabet.length,
            0, 0, 0⟩).bestKey) := by
      refine (breakLoopGo_key_perm alphabet.length _
        (fun i k hk => roundProc_key_perm alphabet.length qg
          (textProject alphabet ciphertext) _ fuel shuffles hsh i k hk)
        consolidate (List.range maxRounds.toNat) _ ?_ ?_).2
      · exact List.Perm.refl _
      · exact List.Perm.refl _
    have hks : List.Perm
        (((breakLoopGo
          (roundProc qg (textProject alphabet ciphertext)
            ((List.range alphabet.length).map
              (fun idx => ((textProject alphabet ciphertext).enum.filter
                (fun p => p.2 = idx)).map (fun p => p.1)))
            alphabet.length fuel shuffles) consolidate
          (List.range maxRounds.toNat)
          ⟨0, 1, List.range alphabet.length, List.range alphabet.length,
            0, 0, 0⟩).bestKey).map (fun x => alphabet.getD x (.low 0)))
        alphabet := by
      have h1 := List.Perm.map (fun x => alphabet.getD x (.low 0)) hbk
      rw [range_map_getD alphabet (.low 0)] at h1
      exact h1
    obtain ⟨K, hK⟩ := mkKey_ok_of_perm _ alphabet hal hks
    rw [hK]
    constructor
    · simp [hlen]
    · intro h4
      rfl

/-- Witness for C5 at a concrete input: a 4-symbol ciphertext is accepted
and a result is produced. -/
theorem break_cipher_short_ciphertext_witness :
    ((break_cipher [PChar.low 0, PChar.low 1] [] (fun _ k => k) 5
        [PChar.low 0, PChar.low 1, PChar.low 0, PChar.low 1] 1 3 =
          .error "ciphertext is too short"
        ↔ (textProject [PChar.low 0, PChar.low 1]
            [PChar.low 0, PChar.low 1, PChar.low 0, PChar.low 1]).length < 4) ∧
      (4 ≤ (textProject [PChar.low 0, PChar.low 1]
          [PChar.low 0, PChar.low 1, PChar.low 0, PChar.low 1]).length →
        (break_cipher [PChar.low 0, PChar.low 1] [] (fun _ k => k) 5
          [PChar.low 0, PChar.low 1, PChar.low 0, PChar.low 1] 1 3).isOk = true)) ∧
    4 ≤ (textProject [PChar.low 0, PChar.low 1]
        [PChar.low 0, PChar.low 1, PChar.low 0, PChar.low 1]).length :=
  ⟨break_cipher_short_ciphertext [PChar.low 0, PChar.low 1] [] (fun _ k => k) 5
      [PChar.low 0, PChar.low 1, PChar.low 0, PChar.low 1] 1 3
      (by norm_num) (by norm_num) (by norm_num) (by norm_num) (by decide)
      (fun i k => List.Perm.refl k),
   by decide⟩

/-! ## C3: encode/decode round trip -/

theorem transLookup_eq_none (c : PChar) :
    ∀ (xs ys : List PChar), c ∉ xs → transLookup? (xs.zip ys) c = none := by
  intro xs
  induction xs with
  | nil => intro ys _; rfl
  | cons x xs ih =>
    intro ys hc
    rcases ys with _ | ⟨y, ys⟩
    · rfl
    · show transLookup? ((x, y) :: xs.zip ys) c = none
      unfold transLookup?
      rw [ih ys (fun h => hc (List.mem_cons_of_mem x h))]
      have hxc : ¬ x = c := fun h => hc (h ▸ List.mem_cons_self x xs)
      simp [hxc]

theorem transLookup_zip_getElem :
    ∀ (xs ys : List PChar) (i : Nat) (hx : i < xs.length) (hy : i < ys.length),
      xs.Nodup → transLookup? (xs.zip ys) xs[i] = some ys[i] := by
  intro xs
  induction xs with
  | nil => intro ys i hx hy hnd; simp at hx
  | cons x xs ih =>
    intro ys i hx hy hnd
    rcases ys with _ | ⟨y, ys⟩
    · simp at hy
    · rcases i with _ | i
      · simp only [List.zip_cons_cons, List.getElem_cons_zero]
        unfold transLookup?
        have hx' : x ∉ xs := (List.nodup_cons.mp hnd).1
        rw [transLookup_eq_none x xs ys hx']
        simp
      · simp only [List.zip_cons_cons, List.getElem_cons_succ]
        unfold transLookup?
        rw [ih ys i (by simpa using hx) (by simpa using hy)
          (List.nodup_cons.mp hnd).2]

theorem transLookup_roundtrip_char (xs ys : List PChar) (hnx : xs.Nodup)
    (hny : ys.Nodup) (hlen : xs.length = ys.length)
    (hperm : List.Perm ys xs) (c : PChar) :
    (transLookup? (ys.zip xs)
        ((transLookup? (xs.zip ys) c).getD c)).getD
      ((transLookup? (xs.zip ys) c).getD c) = c := by
  by_cases hc : c ∈ xs
  · obtain ⟨i, hi, hgi⟩ := List.mem_iff_getElem.mp hc
    subst hgi
    rw [transLookup_zip_getElem xs ys i hi (hlen ▸ hi) hnx]
    rw [Option.getD_some]
    rw [transLookup_zip_getElem ys xs i (hlen ▸ hi) hi hny]
    rw [Option.getD_some]
  · rw [transLookup_eq_none c xs ys hc, Option.getD_none]
    have hcy : c ∉ ys := fun hy => hc (hperm.mem_iff.mp hy)
    rw [transLookup_eq_none c ys xs hcy, Option.getD_none]

theorem strLower_eq_self (l : List PChar) (h : AllLow l) : strLower l = l := by
  unfold strLower
  have : ∀ c ∈ l, pyLower c = id c := by
    intro c hc
    obtain ⟨n, rfl⟩ := h c hc
    rfl
  rw [List.map_congr_left this, List.map_id]

theorem camel_nodup (l : List PChar) (hlow : AllLow l) (hnd : l.Nodup) :
    (strUpper l ++ strLower l).Nodup := by
  rw [strLower_eq_self l hlow]
  rw [List.nodup_append]
  refine ⟨?_, hnd, ?_⟩
  · refine List.Nodup.map_on ?_ hnd
    intro x hx y hy hxy
    obtain ⟨n, rfl⟩ := hlow x hx
    obtain ⟨m, rfl⟩ := hlow y hy
    simpa [pyUpper] using hxy
  · intro a ha hb
    unfold strUpper at ha
    rw [List.mem_map] at ha
    obtain ⟨x, hx, rfl⟩ := ha
    obtain ⟨n, rfl⟩ := hlow x hx
    obtain ⟨m, hm⟩ := hlow _ hb
    exact PChar.noConfusion hm

/-- Counterexample to C3 as stated: the Key/Alphabet pair with alphabet
"a3" (a cased letter and a caseless character) and key "3a" is valid, yet
decoding the encoding of the single-character text "A" yields "a", not
"A": the caseless key character appears twice in the camel translation
tables and its second occurrence overrides the first, so the uppercase
branch of the tables is not injective and the round trip breaks on
uppercase input. -/
theorem roundtrip_fails_on_caseless_alphabet :
    ((mkKey [PChar.other 0, PChar.low 0] [PChar.low 0, PChar.other 0]).map
      (fun K => Key.decode K (Key.encode K [PChar.up 0])) =
        .ok [PChar.low 0]) ∧
    ([PChar.low 0] : List PChar) ≠ [PChar.up 0] :=
  ⟨rfl, by decide⟩

/-- C3 (amended): for every valid Key/Alphabet pair whose characters are
all lowercase cased letters — the shape of every alphabet the repository
ships and tests — encoding and decoding are mutually inverse on every
text, including texts with uppercase and non-alphabet characters.  (With
caseless characters in the alphabet the round trip can fail on uppercase
input; see the counterexample.) -/
theorem encode_decode_roundtrip (key alphabet : List PChar) (K : KeyObj)
    (hA : AllLow alphabet) (hk : AllLow key)
    (hmk : mkKey key alphabet = .ok K) (t : List PChar) :
    Key.decode K (Key.encode K t) = t ∧ Key.encode K (Key.decode K t) = t := by
  unfold mkKey at hmk
  split at hmk
  · exact absurd hmk (by simp)
  · next al hal =>
    split at hmk
    · exact absurd hmk (by simp)
    · next k hkey =>
      simp only [Except.ok.injEq] at hmk
      unfold check_alphabet at hal
      split at hal
      · next hnd =>
        simp only [Except.ok.injEq] at hal
        unfold check_key at hkey
        split at hkey
        · exact absurd hkey (by simp)
        · split at hkey
          · exact absurd hkey (by simp)
          · split at hkey
            · exact absurd hkey (by simp)
            · next hnk hlen hset =>
              rw [not_not] at hnk
              rw [not_not] at hlen
              rw [not_or, not_not, not_not] at hset
              -- basic facts
              have hLa : strLower alphabet = alphabet := strLower_eq_self alphabet hA
              have hLk : strLower key = key := strLower_eq_self key hk
              have hnda : alphabet.Nodup := by rw [← hLa]; exact hnd
              have hndk : key.Nodup := by rw [← hLk]; exact hnk
              have hlength : key.length = alphabet.length := by
                have := hlen
                rw [hLk, ← hal, hLa] at this
                exact this
              have hperm : List.Perm key alphabet := by
                apply List.perm_of_nodup_nodup_toFinset_eq hndk hnda
                ext x
                simp only [List.mem_toFinset]
                constructor
                · intro hx
                  have := hset.1 x (by rw [hLk]; exact hx)
                  rw [← hal, hLa] at this
                  exact this
                · intro hx
                  have := hset.2 x (by rw [← hal, hLa]; exact hx)
                  rw [hLk] at this
                  exact this
              -- camel strings
              have hcamelA : (strUpper alphabet ++ strLower alphabet).Nodup :=
                camel_nodup alphabet hA hnda
              have hcamelK : (strUpper key ++ strLower key).Nodup :=
                camel_nodup key hk hndk
              have hcperm : List.Perm (strUpper key ++ strLower key)
                  (strUpper alphabet ++ strLower alphabet) :=
                List.Perm.append (List.Perm.map pyUpper hperm)
                  (List.Perm.map pyLower hperm)
              have hclen : (strUpper alphabet ++ strLower alphabet).length =
                  (strUpper key ++ strLower key).length := by
                simp [strUpper, strLower, hlength]
              -- the translation tables of K
              have henc : K.enc = (strUpper alphabet ++ strLower alphabet).zip
                  (strUpper key ++ strLower key) := by rw [← hmk]
              have hdec : K.dec = (strUpper key ++ strLower key).zip
                  (strUpper alphabet ++ strLower alphabet) := by rw [← hmk]
              constructor
              · unfold Key.decode Key.encode pyTranslate
                rw [List.map_map]
                have hchar : ∀ c ∈ t, ((fun c => (transLookup? K.dec c).getD c) ∘
                    fun c => (transLookup? K.enc c).getD c) c = id c := by
                  intro c _
                  rw [Function.comp_apply, henc, hdec]
                  exact transLookup_roundtrip_char _ _ hcamelA hcamelK hclen
                    hcperm c
                rw [List.map_congr_left hchar, List.map_id]
              · unfold Key.decode Key.encode pyTranslate
                rw [List.map_map]
                have hchar : ∀ c ∈ t, ((fun c => (transLookup? K.enc c).getD c) ∘
                    fun c => (transLookup? K.dec c).getD c) c = id c := by
                  intro c _
                  rw [Function.comp_apply, henc, hdec]
                  exact transLookup_roundtrip_char _ _ hcamelK hcamelA
                    hclen.symm hcperm.symm c
                rw [List.map_congr_left hchar, List.map_id]
      · exact absurd hal (by simp)

/-- Witness for C3's amended theorem: a concrete lowercase alphabet and
key round-trip a text containing an uppercase and a non-alphabet
character. -/
theorem encode_decode_roundtrip_witness :
    AllLow [PChar.low 0, PChar.low 1] ∧
    AllLow [PChar.low 1, PChar.low 0] ∧
    mkKey [PChar.low 1, PChar.low 0] [PChar.low 0, PChar.low 1] =
      .ok ⟨[PChar.low 1, PChar.low 0], [PChar.low 0, PChar.low 1],
        [(PChar.up 0, PChar.up 1), (PChar.up 1, PChar.up 0),
         (PChar.low 0, PChar.low 1), (PChar.low 1, PChar.low 0)],
        [(PChar.up 1, PChar.up 0), (PChar.up 0, PChar.up 1),
         (PChar.low 1, PChar.low 0), (PChar.low 0, PChar.low 1)]⟩ ∧
    Key.decode
      ⟨[PChar.low 1, PChar.low 0], [PChar.low 0, PChar.low 1],
        [(PChar.up 0, PChar.up 1), (PChar.up 1, PChar.up 0),
         (PChar.low 0, PChar.low 1), (PChar.low 1, PChar.low 0)],
        [(PChar.up 1, PChar.up 0), (PChar.up 0, PChar.up 1),
         (PChar.low 1, PChar.low 0), (PChar.low 0, PChar.low 1)]⟩
      (Key.encode
        ⟨[PChar.low 1, PChar.low 0], [PChar.low 0, PChar.low 1],
          [(PChar.up 0, PChar.up 1), (PChar.up 1, PChar.up 0),
           (PChar.low 0, PChar.low 1), (PChar.low 1, PChar.low 0)],
          [(PChar.up 1, PChar.up 0), (PChar.up 0, PChar.up 1),
           (PChar.low 1, PChar.low 0), (PChar.low 0, PChar.low 1)]⟩
        [PChar.up 0, PChar.other 7, PChar.low 1]) =
      [PChar.up 0, PChar.other 7, PChar.low 1] :=
  ⟨by decide, by decide, rfl,
   (encode_decode_roundtrip [PChar.low 1, PChar.low 0]
      [PChar.low 0, PChar.low 1] _ (by decide) (by decide) rfl
      [PChar.up 0, PChar.other 7, PChar.low 1]).1⟩

/-! ## C9: the quadgram table over the reachable index range -/

theorem transIdxGo_bound (c : PChar) :
    ∀ (l : List PChar) (i : Nat) (acc : Option Nat) (v : Nat),
      (∀ w, acc = some w → w < i) → transIdxGo c l i acc = some v →
      v < i + l.length := by
  intro l
  induction l with
  | nil =>
    intro i acc v hacc h
    have := hacc v h
    simpa using this
  | cons a rest ih =>
    intro i acc v hacc h
    have h' : transIdxGo c rest (i + 1) (if a = c then some i else acc) = some v := h
    have hres := ih (i + 1) (if a = c then some i else acc) v ?_ h'
    · simp only [List.length_cons]
      omega
    · intro w hw
      split at hw
      · simp only [Option.some.injEq] at hw
        omega
      · have := hacc w hw
        omega

theorem textProject_bound (a t : List PChar) :
    ∀ sym ∈ textProject a t, sym < a.length := by
  intro sym hmem
  unfold textProject at hmem
  rw [List.mem_filterMap] at hmem
  obtain ⟨c, _, hc⟩ := hmem
  unfold transIdx? at hc
  have := transIdxGo_bound c (strLower a) 0 none sym (by simp) hc
  simpa [strLower] using this

theorem quadStep_eq_mod (code sym : Nat) :
    quadStep code sym = (code % 32768) * 32 + sym := by
  unfold quadStep
  rw [Nat.shiftLeft_eq]
  have h := Nat.and_pow_two_sub_one_eq_mod code 15
  norm_num at h ⊢
  omega

theorem quadStep_fields (code sym len : Nat) (hs : sym < len) (hlen : len ≤ 32)
    (hcode : ∀ k, k < 3 → code / 32 ^ k % 32 < len) :
    ∀ k, k < 4 → quadStep code sym / 32 ^ k % 32 < len := by
  intro k hk
  rw [quadStep_eq_mod]
  have h0 := hcode 0 (by omega)
  have h1 := hcode 1 (by omega)
  have h2 := hcode 2 (by omega)
  norm_num at h0 h1 h2
  rcases k with _ | _ | _ | _ | k
  · norm_num
    omega
  · norm_num
    omega
  · norm_num
    omega
  · norm_num
    omega
  · omega

theorem seed_fields (c0 c1 c2 len : Nat) (h0 : c0 < len) (h1 : c1 < len)
    (h2 : c2 < len) (hlen : len ≤ 32) :
    ∀ k, k < 3 → ((((c0 <<< 5) + c1) <<< 5) + c2) / 32 ^ k % 32 < len := by
  intro k hk
  rw [Nat.shiftLeft_eq, Nat.shiftLeft_eq]
  rcases k with _ | _ | _ | k
  · norm_num
    omega
  · norm_num
    omega
  · norm_num
    omega
  · omega

theorem countQuadgramsGo_length :
    ∀ (syms : List Nat) (code : Nat) (tbl : List Nat),
      (countQuadgramsGo syms code tbl).length = tbl.length := by
  intro syms
  induction syms with
  | nil => intro code tbl; rfl
  | cons c rest ih =>
    intro code tbl
    show (countQuadgramsGo rest (quadStep code c) _).length = tbl.length
    rw [ih]
    simp

theorem countQuadgramsGo_zero (len : Nat) (hlen : len ≤ 32) :
    ∀ (syms : List Nat) (code : Nat) (tbl : List Nat),
      (∀ s ∈ syms, s < len) →
      (∀ k, k < 3 → code / 32 ^ k % 32 < len) →
      (∀ i, (∃ k, k < 4 ∧ len ≤ i / 32 ^ k % 32) → tbl.getD i 0 = 0) →
      ∀ i, (∃ k, k < 4 ∧ len ≤ i / 32 ^ k % 32) →
        (countQuadgramsGo syms code tbl).getD i 0 = 0 := by
  intro syms
  induction syms with
  | nil => intro code tbl _ _ htbl i hbad; exact htbl i hbad
  | cons c rest ih =>
    intro code tbl hsym hcode htbl i hbad
    show (countQuadgramsGo rest (quadStep code c) _).getD i 0 = 0
    have hc : c < len := hsym c (List.mem_cons_self c rest)
    have hfields : ∀ k, k < 4 → quadStep code c / 32 ^ k % 32 < len :=
      quadStep_fields code c len hc hlen hcode
    refine ih (quadStep code c) _
      (fun s hs => hsym s (List.mem_cons_of_mem c hs))
      (fun k hk => hfields k (by omega)) ?_ i hbad
    intro j hbadj
    have hne : quadStep code c ≠ j := by
      intro heq
      obtain ⟨k, hk, hgek⟩ := hbadj
      have := hfields k hk
      rw [heq] at this
      omega
    have : (tbl.set (quadStep code c) (tbl.getD (quadStep code c) 0 + 1)).getD j 0 =
        tbl.getD j 0 := by
      simp [List.getD_eq_getElem?_getD, List.getElem?_set, hne]
    rw [this]
    exact htbl j hbadj

theorem replicate_getD_zero (n i : Nat) :
    (List.replicate n (0 : Nat)).getD i 0 = 0 := by
  by_cases h : i < n
  · have h' : i < (List.replicate n (0 : Nat)).length := by simpa using h
    rw [List.getD_eq_getElem?_getD, List.getElem?_eq_getElem h']
    simp [List.getElem_replicate]
  · rw [List.getD_eq_getElem?_getD, List.getElem?_eq_none (by simpa using h)]
    rfl

theorem map_getD_zero_int (l : List Nat) (g : Nat → Int) (hg : g 0 = 0) (i : Nat)
    (h0 : l.getD i 0 = 0) : (l.map g).getD i 0 = 0 := by
  by_cases h : i < l.length
  · have h' : i < (l.map g).length := by simpa using h
    rw [List.getD_eq_getElem?_getD, List.getElem?_eq_getElem h']
    rw [List.getElem_map]
    rw [List.getD_eq_getElem?_getD, List.getElem?_eq_getElem h] at h0
    simp only [Option.getD_some] at h0
    simp [h0, hg]
  · rw [List.getD_eq_getElem?_getD, List.getElem?_eq_none (by simpa using h)]
    rfl

theorem pyRound_zero : pyRound 0 = 0 := by
  unfold pyRound
  norm_num

/-- C9: for every alphabet of unique symbols with length at most 32 and
every corpus whose projection yields at least one quadgram window (at
least 4 symbols), `generate_quadgrams` produces a scores table with
exactly `32^4 = 1,048,576` entries, and every entry whose packed code
contains a 5-bit field at or above the alphabet length (i.e. a code
outside the `len(alphabet)^4` reachable range) is zero. -/
theorem generate_quadgrams_table (logf : ℚ → ℚ) (corpus alphabet : List PChar)
    (hnd : (strLower alphabet).Nodup) (hlen : alphabet.length ≤ 32)
    (hproj : 4 ≤ (textProject (strLower alphabet) corpus).length) :
    ∃ gd, generate_quadgrams logf corpus alphabet = .ok gd ∧
      gd.quadgrams.length = 32 * 32 * 32 * 32 ∧
      ∀ i k : Nat, k < 4 → alphabet.length ≤ (i >>> (5 * k)) % 32 →
        gd.quadgrams.getD i 0 = 0 := by
  have hallen : (strLower alphabet).length = alphabet.length := by
    simp [strLower]
  unfold generate_quadgrams
  unfold check_alphabet
  rw [if_pos hnd]
  dsimp only
  rw [if_neg (by omega)]
  rcases hp : textProject (strLower alphabet) corpus with
    _ | ⟨c0, _ | ⟨c1, _ | ⟨c2, rest⟩⟩⟩
  · rw [hp] at hproj; simp at hproj
  · rw [hp] at hproj; simp at hproj
  · rw [hp] at hproj; simp at hproj
  · have hrest : rest ≠ [] := by
      intro hr
      rw [hp, hr] at hproj
      simp at hproj
    dsimp only
    rw [if_neg (by simpa [List.isEmpty_iff] using hrest)]
    refine ⟨_, rfl, ?_, ?_⟩
    · dsimp only
      simp only [List.length_map]
      rw [countQuadgramsGo_length, List.length_replicate]
    · intro i k hk hge
      rw [Nat.shiftRight_eq_div_pow, pow_mul] at hge
      norm_num at hge
      dsimp only
      rw [List.map_map]
      have hsyms : ∀ s ∈ rest, s < alphabet.length := by
        intro s hs
        have : s ∈ textProject (strLower alphabet) corpus := by
          rw [hp]
          exact List.mem_cons_of_mem c0 (List.mem_cons_of_mem c1
            (List.mem_cons_of_mem c2 hs))
        have := textProject_bound (strLower alphabet) corpus s this
        omega
      have hc0 : c0 < alphabet.length := by
        have : c0 ∈ textProject (strLower alphabet) corpus := by
          rw [hp]; exact List.mem_cons_self c0 _
        have := textProject_bound (strLower alphabet) corpus c0 this
        omega
      have hc1 : c1 < alphabet.length := by
        have : c1 ∈ textProject (strLower alphabet) corpus := by
          rw [hp]
          exact List.mem_cons_of_mem c0 (List.mem_cons_self c1 _)
        have := textProject_bound (strLower alphabet) corpus c1 this
        omega
      have hc2 : c2 < alphabet.length := by
        have : c2 ∈ textProject (strLower alphabet) corpus := by
          rw [hp]
          exact List.mem_cons_of_mem c0 (List.mem_cons_of_mem c1
            (List.mem_cons_self c2 _))
        have := textProject_bound (strLower alphabet) corpus c2 this
        omega
      have hcount : (countQuadgramsGo rest ((((c0 <<< 5) + c1) <<< 5) + c2)
          (List.replicate (32 * 32 * 32 * 32) 0)).getD i 0 = 0 := by
        refine countQuadgramsGo_zero alphabet.length hlen rest _ _ hsyms
          (seed_fields c0 c1 c2 alphabet.length hc0 hc1 hc2 hlen)
          (fun j _ => replicate_getD_zero _ j) i ⟨k, hk, hge⟩
      refine map_getD_zero_int _ _ ?_ i hcount
      simp only [Function.comp_apply]
      rw [if_neg (by omega : ¬ (0 : Nat) ≠ 0)]
      rw [zero_div, zero_mul, pyRound_zero]

/-- Witness for C9 at a concrete input: a 2-character alphabet and a
4-symbol corpus satisfy the hypotheses and yield a table. -/
theorem generate_quadgrams_table_witness :
    (strLower [PChar.low 0, PChar.low 1]).Nodup ∧
    ([PChar.low 0, PChar.low 1] : List PChar).length ≤ 32 ∧
    4 ≤ (textProject (strLower [PChar.low 0, PChar.low 1])
      [PChar.low 0, PChar.low 1, PChar.low 0, PChar.low 1]).length ∧
    (∃ gd, generate_quadgrams (fun _ => 0)
        [PChar.low 0, PChar.low 1, PChar.low 0, PChar.low 1]
        [PChar.low 0, PChar.low 1] = .ok gd ∧
      gd.quadgrams.length = 32 * 32 * 32 * 32 ∧
      ∀ i k : Nat, k < 4 →
        ([PChar.low 0, PChar.low 1] : List PChar).length ≤ (i >>> (5 * k)) % 32 →
        gd.quadgrams.getD i 0 = 0) :=
  ⟨by decide, by decide, by decide,
   generate_quadgrams_table (fun _ => 0)
     [PChar.low 0, PChar.low 1, PChar.low 0, PChar.low 1]
     [PChar.low 0, PChar.low 1] (by decide) (by decide) (by decide)⟩

end SubBreaker
